import Mathlib

/-!
Verification development for the autocorrect-enhanced repository.

Tokens are modelled as lists of characters (Python strings viewed as
character sequences).  Dictionaries are modelled as association lists,
sets as deduplicated lists, and float arithmetic as exact arithmetic over
the rationals and reals (with EReal where the code can produce an IEEE
infinity via np.log(0)).  The three Python classes Autocorrection,
HybridAutocorrection and EnhancedAutocorrection are embedded in the
namespaces of the same names; helper methods whose bodies are identical
across the classes are embedded once at top level.
-/

/-- Tokens: a Python string viewed as its sequence of characters. -/
abbrev Tok := List Char

/-- string.ascii_lowercase, the fixed alphabet used by the candidate generator. -/
def letter : List Char := "abcdefghijklmnopqrstuvwxyz".toList

/-- Python str.lower(), applied characterwise. -/
def lowerTok (w : Tok) : Tok := w.map Char.toLower

/-- splits = [(word[:i], word[i:]) for i in range(len(word) + 1)] -/
def splits (word : Tok) : List (Tok × Tok) :=
  (List.range (word.length + 1)).map (fun i => (word.take i, word.drop i))

/-- insert = [l + c + r for l, r in splits for c in letter] -/
def insertEdits (word : Tok) : List Tok :=
  (splits word).flatMap (fun p => letter.map (fun c => p.1 ++ c :: p.2))

/-- delete = [l + r[1:] for l, r in splits if r] -/
def deleteEdits (word : Tok) : List Tok :=
  ((splits word).filter (fun p => ¬ p.2 = [])).map (fun p => p.1 ++ p.2.tail)

/-- replace = [l + c + r[1:] for l, r in splits if r for c in letter] -/
def replaceEdits (word : Tok) : List Tok :=
  ((splits word).filter (fun p => ¬ p.2 = [])).flatMap
    (fun p => letter.map (fun c => p.1 ++ c :: p.2.tail))

/-- swap = [l + r[1] + r[0] + r[2:] for l, r in splits if len(r) > 1] -/
def swapEdits (word : Tok) : List Tok :=
  ((splits word).filter (fun p => 1 < p.2.length)).map
    (fun p => p.1 ++ p.2.getD 1 ' ' :: p.2.getD 0 ' ' :: p.2.drop 2)

/-- edit1 of Autocorrection (lines 28-36), HybridAutocorrection (151-159) and
EnhancedAutocorrection (220-228): returns set(replace + insert + delete + swap);
the Python set is modelled as a deduplicated list. -/
def edit1 (word : Tok) : List Tok :=
  (replaceEdits word ++ insertEdits word ++ deleteEdits word ++ swapEdits word).dedup

/-- edit2: [e2 for e1 in self.edit1(word) for e2 in self.edit1(e1)], a plain
list with no deduplication. -/
def edit2 (word : Tok) : List Tok :=
  (edit1 word).flatMap edit1

/-- suggestions = self.edit1(word).union(self.edit2(word)); the resulting
Python set is modelled as the deduplicated concatenation. -/
def suggestionsUnion (word : Tok) : List Tok :=
  (edit1 word ++ edit2 word).dedup

/-- common_prefix_length of all three classes: the length of the common
prefix of two words (the Python loop zips the words and stops at the first
mismatching character pair). -/
def common_prefix_length : Tok → Tok → ℕ
  | c1 :: w1, c2 :: w2 => if c1 = c2 then common_prefix_length w1 w2 + 1 else 0
  | _, _ => 0

/-- Levenshtein distance with unit costs for insertion, deletion and
substitution; this is the metric computed by the external editdistance
library used by custom_score. -/
def edit_distance : List Char → List Char → ℕ
  | [], t => t.length
  | s, [] => s.length
  | a :: s, b :: t =>
    if a = b then edit_distance s t
    else 1 + min (edit_distance s t) (min (edit_distance (a :: s) t) (edit_distance s (b :: t)))
termination_by s t => s.length + t.length
decreasing_by all_goals simp_arith

/-- custom_score of Autocorrection (lines 51-73), HybridAutocorrection
(175-195) and EnhancedAutocorrection (244-264).  The Python int arithmetic
(including the len(original_word) - 1 comparison, which can be negative) is
carried out in the integers. -/
def custom_score (suggestion original_word : Tok) : ℤ :=
  let replace_weight : ℤ := 1
  let insert_weight : ℤ := 2
  let delete_weight : ℤ := 3
  let swap_weight : ℤ := 4
  let distance : ℤ := edit_distance suggestion original_word
  if (suggestion.length : ℤ) = (original_word.length : ℤ) then
    distance * replace_weight +
      ((original_word.length : ℤ) - (common_prefix_length suggestion original_word : ℤ))
  else if (suggestion.length : ℤ) = (original_word.length : ℤ) + 1 then
    distance * insert_weight +
      ((original_word.length : ℤ) - (common_prefix_length suggestion original_word : ℤ))
  else if (suggestion.length : ℤ) = (original_word.length : ℤ) - 1 then
    distance * delete_weight
  else
    distance * swap_weight

/-- Python dict assignment d[k] = v on an association list: overwrite the
value of an existing key in place, otherwise append a new entry. -/
def dictInsert {α β : Type} [DecidableEq α] (l : List (α × β)) (k : α) (v : β) :
    List (α × β) :=
  if l.any (fun p => p.1 = k) then l.map (fun p => if p.1 = k then (k, v) else p)
  else l ++ [(k, v)]

/-- Python dict.get(k, d) on an association list. -/
def dictGetD {α β : Type} [BEq α] (l : List (α × β)) (k : α) (d : β) : β :=
  (l.lookup k).getD d

/-- Sum of the values of a dictionary (sum(d.values())). -/
def sumVals {α : Type} (l : List (α × ℚ)) : ℚ :=
  (l.map Prod.snd).sum

/-- prob_of_word as built by all three constructors / build_vocabulary:
a dictionary mapping each distinct corpus token to count / total. -/
def build_prob (all_words : List Tok) : List (Tok × ℚ) :=
  all_words.dedup.map
    (fun w => (w, (all_words.count w : ℚ) / (all_words.length : ℚ)))

/-- nltk.bigrams over a token stream: adjacent ordered pairs. -/
def bigramsOf (ws : List Tok) : List (Tok × Tok) :=
  ws.zip ws.tail

/-- nltk.trigrams over a token stream: adjacent ordered triples. -/
def trigramsOf (ws : List Tok) : List (Tok × Tok × Tok) :=
  ws.zip (ws.tail.zip ws.tail.tail)

/-- prob_of_bigram: each distinct bigram mapped to count / total bigrams. -/
def build_bigram_prob (ws : List Tok) : List ((Tok × Tok) × ℚ) :=
  (bigramsOf ws).dedup.map
    (fun p => (p, ((bigramsOf ws).count p : ℚ) / ((bigramsOf ws).length : ℚ)))

/-- prob_of_trigram: each distinct trigram mapped to count / total trigrams. -/
def build_trigram_prob (ws : List Tok) : List ((Tok × Tok × Tok) × ℚ) :=
  (trigramsOf ws).dedup.map
    (fun p => (p, ((trigramsOf ws).count p : ℚ) / ((trigramsOf ws).length : ℚ)))

/-- Python list.sort(key=k) (a stable sort by a real-valued key); the key
values are float scores, modelled as reals, so the comparator is obtained
classically.  None of the verified properties depend on the produced order,
only on the output being a permutation bound of the input. -/
noncomputable def sortByKey {γ : Type} [LE γ] (key : Tok → γ) (l : List Tok) : List Tok :=
  @List.insertionSort Tok (fun a b => key a ≤ key b) (fun _ _ => Classical.dec _) l

/-- previous_words[-1] (valid whenever the list is non-empty). -/
def lastTok (l : List Tok) : Tok := l.getD (l.length - 1) []

/-- previous_words[-2] (valid whenever the list has at least two elements). -/
def penultTok (l : List Tok) : Tok := l.getD (l.length - 2) []

/-- record_user_feedback of EnhancedAutocorrection (lines 205-218) and
HybridAutocorrection (136-149): increments the accepted or rejected counter
for (original_word, suggested_word), creating the record (with both
counters 0) when absent.  The nested Python dicts are modelled as a map to
an optional counter pair. -/
def record_user_feedback (fb : Tok → Tok → Option (ℕ × ℕ))
    (original_word suggested_word : Tok) (accepted : Bool) :
    Tok → Tok → Option (ℕ × ℕ) :=
  fun o s =>
    if o = original_word ∧ s = suggested_word then
      let cur := (fb original_word suggested_word).getD (0, 0)
      if accepted then some (cur.1 + 1, cur.2) else some (cur.1, cur.2 + 1)
    else fb o s

/-- The feedback store of a fresh instance: no records. -/
def emptyFeedback : Tok → Tok → Option (ℕ × ℕ) := fun _ _ => none

/-- acceptance_rate = feedback accepted / total, the inline computation of
enhanced_context_score (line 296) and context_aware_score (line 242). -/
noncomputable def acceptance_rate (accepted rejected : ℕ) : ℝ :=
  (accepted : ℝ) / ((accepted : ℝ) + (rejected : ℝ))

/-- The user-feedback component of enhanced_context_score
(enhanced_autocorrection.py lines 290-297) and of context_aware_score
(hybrid_autocorrection.py lines 236-243): 0 without a record or with total
observations 0, otherwise -np.log(1 - acceptance_rate) * 1.5.  When the
acceptance rate is exactly 1 (no rejections), numpy evaluates np.log(0) to
-inf, so the score is +inf; the value therefore lives in EReal with that
case mapped to the top element. -/
noncomputable def feedback_score (fb : Tok → Tok → Option (ℕ × ℕ))
    (original_word suggestion : Tok) : EReal :=
  match fb original_word suggestion with
  | none => 0
  | some (accepted, rejected) =>
    if 0 < accepted + rejected then
      if rejected = 0 then ⊤
      else (((- Real.log (1 - acceptance_rate accepted rejected)) * 1.5 : ℝ) : EReal)
    else 0

namespace Autocorrection

/-- The vocabulary of Autocorrection: set(word) for the corpus token list.
The class is only ever constructed from a corpus, so its methods are
embedded as functions of that corpus token list. -/
def vocabOf (words : List Tok) : List Tok := words.dedup

/-- prob_of_word[w] = counts_of_word[w] / total_words (autocorrection.py
line 20); the call sites index the dictionary only with vocabulary members,
for which the value is count / length. -/
def prob_of_word (words : List Tok) (w : Tok) : ℚ :=
  (words.count w : ℚ) / (words.length : ℚ)

/-- self.prob_of_word.get(suggestion, 1e-9) (line 79). -/
def prob_get (words : List Tok) (s : Tok) : ℚ :=
  if s ∈ vocabOf words then prob_of_word words s else 1 / 1000000000

/-- combined_score (lines 77-80): custom edit score plus
-np.log(prob_of_word.get(suggestion, 1e-9)). -/
noncomputable def combined_score (words : List Tok) (suggestion original_word : Tok) : ℝ :=
  (custom_score suggestion original_word : ℝ) + (- Real.log (prob_get words suggestion))

/-- correct_spelling (lines 84-98).  For an in-vocabulary word the Python
method prints a message and returns None (modelled as none).  Otherwise the
edit-1/edit-2 candidates are filtered against the vocabulary; with no
survivors the triple (word, 0, 0) is returned, else the candidates sorted
by combined_score, each paired with its probability.  Python returns a
3-tuple in the first case and 2-tuples in the second, so entries are
modelled as a token paired with the list of its numeric components. -/
noncomputable def correct_spelling (words : List Tok) (word : Tok) :
    Option (List (Tok × List ℚ)) :=
  if word ∈ vocabOf words then none
  else
    let best_guesses := (suggestionsUnion word).filter (fun w => w ∈ vocabOf words)
    if best_guesses = [] then some [(word, [0, 0])]
    else
      some ((sortByKey (fun w => combined_score words w word) best_guesses).map
        (fun w => (w, [prob_of_word words w])))

end Autocorrection

/-- The mutable state of a HybridAutocorrection instance. -/
structure HybridState where
  custom_words : List Tok
  user_feedback : Tok → Tok → Option (ℕ × ℕ)
  vocabulary : List Tok
  prob_of_word : List (Tok × ℚ)
  prob_of_bigram : List ((Tok × Tok) × ℚ)
  prob_of_trigram : List ((Tok × Tok × Tok) × ℚ)

namespace HybridAutocorrection

/-- build_vocabulary of HybridAutocorrection (lines 76-101) starting from a
fresh instance (empty custom words and feedback, as in __init__ before
load_custom_words). -/
def build (all_words : List Tok) : HybridState where
  custom_words := []
  user_feedback := emptyFeedback
  vocabulary := all_words.dedup
  prob_of_word := build_prob all_words
  prob_of_bigram := build_bigram_prob all_words
  prob_of_trigram := build_trigram_prob all_words

/-- add_custom_word (lines 127-134): lowercase the word, add it to the
custom-word set and the vocabulary, and store probability 0.001 for it. -/
def add_custom_word (st : HybridState) (word : Tok) : HybridState :=
  let w := lowerTok word
  { st with
    custom_words := if w ∈ st.custom_words then st.custom_words else st.custom_words ++ [w]
    vocabulary := if w ∈ st.vocabulary then st.vocabulary else st.vocabulary ++ [w]
    prob_of_word := dictInsert st.prob_of_word w (1 / 1000) }

/-- The fixed homophone set of should_use_context (lines 206-216); the
apostrophes of the Python literals are written with Char.ofNat 39. -/
def context_words : List Tok :=
  ["there".toList, "their".toList, "they".toList ++ [Char.ofNat 39] ++ "re".toList,
   "your".toList, "you".toList ++ [Char.ofNat 39] ++ "re".toList,
   "its".toList, "it".toList ++ [Char.ofNat 39] ++ "s".toList,
   "to".toList, "too".toList, "two".toList,
   "where".toList, "wear".toList, "were".toList,
   "here".toList, "hear".toList,
   "right".toList, "write".toList,
   "know".toList, "no".toList,
   "new".toList, "knew".toList]

/-- should_use_context (lines 203-218). -/
def should_use_context (word : Tok) (previous_words : List Tok) : Bool :=
  lowerTok word ∈ context_words ∧ 1 ≤ previous_words.length

/-- combined_score of HybridAutocorrection (lines 197-201). -/
noncomputable def combined_score (st : HybridState) (suggestion original_word : Tok) : ℝ :=
  (custom_score suggestion original_word : ℝ) +
    (- Real.log ((dictGetD st.prob_of_word suggestion (1 / 1000000000) : ℚ) : ℝ))

/-- context_aware_score (lines 220-250): base score plus weighted bigram
and trigram penalties, the user-feedback score (which can be the IEEE
infinity, hence EReal) and the custom-word bonus. -/
noncomputable def context_aware_score (st : HybridState)
    (suggestion original_word : Tok) (previous_words : List Tok) : EReal :=
  let base_score : ℝ := combined_score st suggestion original_word
  let context_score : ℝ :=
    (if 1 ≤ previous_words.length then
      (- Real.log ((dictGetD st.prob_of_bigram (lastTok previous_words, suggestion)
        (1 / 1000000000) : ℚ) : ℝ)) * 2
     else 0) +
    (if 2 ≤ previous_words.length then
      (- Real.log ((dictGetD st.prob_of_trigram
        (penultTok previous_words, lastTok previous_words, suggestion)
        (1 / 1000000000) : ℚ) : ℝ)) * 3
     else 0)
  let custom_bonus : ℝ := if suggestion ∈ st.custom_words then -3 else 0
  ((base_score + context_score + custom_bonus : ℝ) : EReal) +
    feedback_score st.user_feedback original_word suggestion

/-- get_context_probability of HybridAutocorrection (lines 275-285): the
trigram probability when at least two previous words exist and it is
positive, else the bigram probability when at least one previous word
exists, else 0. -/
def get_context_probability (st : HybridState) (word : Tok)
    (previous_words : List Tok) : ℚ :=
  let bigram_branch : ℚ :=
    if 1 ≤ previous_words.length then
      dictGetD st.prob_of_bigram (lastTok previous_words, word) 0
    else 0
  if 2 ≤ previous_words.length then
    let trigram_prob :=
      dictGetD st.prob_of_trigram
        (penultTok previous_words, lastTok previous_words, word) 0
    if 0 < trigram_prob then trigram_prob else bigram_branch
  else bigram_branch

/-- correct_spelling_hybrid (lines 252-273): an in-vocabulary word is
returned with its stored probability and context placeholder 1.0; otherwise
the vocabulary-filtered edit candidates are sorted (context aware for the
homophone set, else by combined score) and the first five are returned. -/
noncomputable def correct_spelling_hybrid (st : HybridState)
    (previous_words : List Tok) (word : Tok) : List (Tok × ℚ × ℚ) :=
  if word ∈ st.vocabulary then [(word, dictGetD st.prob_of_word word 0, 1)]
  else
    let best_guesses := (suggestionsUnion word).filter (fun w => w ∈ st.vocabulary)
    if best_guesses = [] then [(word, 0, 0)]
    else
      let sorted :=
        if should_use_context word previous_words then
          sortByKey (fun w => context_aware_score st w word previous_words) best_guesses
        else
          sortByKey (fun w => combined_score st w word) best_guesses
      (sorted.take 5).map
        (fun w => (w, dictGetD st.prob_of_word w 0, get_context_probability st w previous_words))

end HybridAutocorrection

/-- The mutable state of an EnhancedAutocorrection instance.  The SymSpell
collaborator is external to the repository: its word dictionary keys are
the field sym_words and its lookup method is the uninterpreted field
symLookup, returning ranked (term, count) suggestions as the spec describes
for the approximate-dictionary collaborator. -/
structure EnhancedState where
  custom_words : List Tok
  shortcuts : List (Tok × Tok)
  user_feedback : Tok → Tok → Option (ℕ × ℕ)
  sym_words : List Tok
  symLookup : Tok → List (Tok × ℕ)
  vocabulary : List Tok
  prob_of_word : List (Tok × ℚ)
  prob_of_bigram : List ((Tok × Tok) × ℚ)
  prob_of_trigram : List ((Tok × Tok × Tok) × ℚ)

namespace EnhancedAutocorrection

/-- build_vocabulary (lines 89-114): rebuilds the vocabulary, word counts,
probabilities and the n-gram models from the token stream, then unions the
custom-word set into the vocabulary. -/
def build_vocabulary (st : EnhancedState) (all_words : List Tok) : EnhancedState :=
  { st with
    vocabulary := all_words.dedup ++ st.custom_words.filter (fun w => ¬ w ∈ all_words.dedup)
    prob_of_word := build_prob all_words
    prob_of_bigram := build_bigram_prob all_words
    prob_of_trigram := build_trigram_prob all_words }

/-- A fresh instance before any corpus is ingested (empty stores; the
SymSpell fields are parameters in concrete instantiations and empty here). -/
def initState : EnhancedState where
  custom_words := []
  shortcuts := []
  user_feedback := emptyFeedback
  sym_words := []
  symLookup := fun _ => []
  vocabulary := []
  prob_of_word := []
  prob_of_bigram := []
  prob_of_trigram := []

/-- add_custom_word (lines 158-166): lowercase the word, add it to the
custom-word set and the vocabulary, and store probability 0.001 for it,
overriding any corpus-derived value. -/
def add_custom_word (st : EnhancedState) (word : Tok) : EnhancedState :=
  let w := lowerTok word
  { st with
    custom_words := if w ∈ st.custom_words then st.custom_words else st.custom_words ++ [w]
    vocabulary := if w ∈ st.vocabulary then st.vocabulary else st.vocabulary ++ [w]
    prob_of_word := dictInsert st.prob_of_word w (1 / 1000) }

/-- add_shortcut (lines 168-181): lowercase both tokens, store the mapping,
and add the full word as a custom word when it is not in the vocabulary. -/
def add_shortcut (st : EnhancedState) (shortcut full_word : Tok) : EnhancedState :=
  let sc := lowerTok shortcut
  let fw := lowerTok full_word
  let st1 := { st with shortcuts := dictInsert st.shortcuts sc fw }
  if fw ∈ st1.vocabulary then st1 else add_custom_word st1 fw

/-- remove_shortcut (lines 183-191): pop the lowercased key when present
and return True, otherwise leave the table unchanged and return False. -/
def remove_shortcut (st : EnhancedState) (shortcut : Tok) : EnhancedState × Bool :=
  let sc := lowerTok shortcut
  if (st.shortcuts.lookup sc).isSome then
    ({ st with shortcuts := st.shortcuts.eraseP (fun p => p.1 == sc) }, true)
  else (st, false)

/-- get_shortcut_expansion (lines 193-195): self.shortcuts.get(word.lower(), None). -/
def get_shortcut_expansion (st : EnhancedState) (word : Tok) : Option Tok :=
  st.shortcuts.lookup (lowerTok word)

/-- is_shortcut (lines 197-199). -/
def is_shortcut (st : EnhancedState) (word : Tok) : Bool :=
  (st.shortcuts.lookup (lowerTok word)).isSome

/-- get_context_probability of EnhancedAutocorrection (lines 332-344),
textually identical to the hybrid version: the trigram probability when at
least two previous words exist and it is positive, else the bigram
probability when at least one previous word exists, else 0. -/
def get_context_probability (st : EnhancedState) (word : Tok)
    (previous_words : List Tok) : ℚ :=
  let bigram_branch : ℚ :=
    if 1 ≤ previous_words.length then
      dictGetD st.prob_of_bigram (lastTok previous_words, word) 0
    else 0
  if 2 ≤ previous_words.length then
    let trigram_prob :=
      dictGetD st.prob_of_trigram
        (penultTok previous_words, lastTok previous_words, word) 0
    if 0 < trigram_prob then trigram_prob else bigram_branch
  else bigram_branch

/-- correct_spelling_enhanced (lines 306-330), the SymSpell-only pipeline.
A shortcut expansion short-circuits, but through the Python truthiness test
if shortcut_expansion, which an empty-string expansion fails.  A word in
the SymSpell dictionary is returned with both probabilities fixed to 1.0.
Otherwise the external lookup result is consulted: its first five entries
are returned with their frequency counts, and when it is empty the terminal
(word, 0, 0) is returned. -/
def correct_spelling_enhanced (st : EnhancedState) (previous_words : List Tok)
    (word : Tok) : List (Tok × ℚ × ℚ × String) :=
  let rest : List (Tok × ℚ × ℚ × String) :=
    if word ∈ st.sym_words then [(word, 1, 1, "SymSpellPy")]
    else if st.symLookup word = [] then [(word, 0, 0, "No suggestion")]
    else ((st.symLookup word).take 5).map
      (fun p => (p.1, (p.2 : ℚ), 1, "SymSpellPy"))
  match get_shortcut_expansion st word with
  | some shortcut_expansion =>
    if shortcut_expansion = [] then rest
    else [(shortcut_expansion, 1, 1, "Shortcut expansion")]
  | none => rest

/-- combined_score of EnhancedAutocorrection (lines 266-270). -/
noncomputable def combined_score (st : EnhancedState) (suggestion original_word : Tok) : ℝ :=
  (custom_score suggestion original_word : ℝ) +
    (- Real.log ((dictGetD st.prob_of_word suggestion (1 / 1000000000) : ℚ) : ℝ))

/-- enhanced_context_score (lines 272-304): doubled base score, halved
bigram weight, unit trigram weight, the user-feedback score and the
custom-word bonus; EReal-valued through the feedback component. -/
noncomputable def enhanced_context_score (st : EnhancedState)
    (suggestion original_word : Tok) (previous_words : List Tok) : EReal :=
  let base_score : ℝ := combined_score st suggestion original_word * 2
  let context_score : ℝ :=
    (if 1 ≤ previous_words.length then
      (- Real.log ((dictGetD st.prob_of_bigram (lastTok previous_words, suggestion)
        (1 / 1000000000) : ℚ) : ℝ)) * 0.5
     else 0) +
    (if 2 ≤ previous_words.length then
      (- Real.log ((dictGetD st.prob_of_trigram
        (penultTok previous_words, lastTok previous_words, suggestion)
        (1 / 1000000000) : ℚ) : ℝ)) * 1.0
     else 0)
  let custom_bonus : ℝ := if suggestion ∈ st.custom_words then -3 else 0
  ((base_score + context_score + custom_bonus : ℝ) : EReal) +
    feedback_score st.user_feedback original_word suggestion

end EnhancedAutocorrection

section HelperLemmas

/-- Every pair produced by splits concatenates back to the word. -/
theorem splits_append {word : Tok} {p : Tok × Tok} (h : p ∈ splits word) :
    p.1 ++ p.2 = word := by
  simp only [splits, List.mem_map, List.mem_range] at h
  obtain ⟨i, _, hp⟩ := h
  rw [← hp]
  exact List.take_append_drop i word

/-- Looking up a key that appears on no entry fails. -/
theorem lookup_eq_none_of_not_mem_keys {α β : Type} [BEq α] [LawfulBEq α]
    {l : List (α × β)} {k : α} (h : ¬ k ∈ l.map Prod.fst) : l.lookup k = none := by
  induction l with
  | nil => rfl
  | cons a t ih =>
    simp only [List.map_cons, List.mem_cons, not_or] at h
    rw [List.lookup_cons]
    have : (k == a.1) = false := by
      simp only [beq_eq_false_iff_ne, ne_eq]
      exact h.1
    simp only [this]
    exact ih h.2

/-- Looking up a key that appears on some entry succeeds. -/
theorem lookup_isSome_of_mem_keys {α β : Type} [BEq α] [LawfulBEq α]
    {l : List (α × β)} {k : α} (h : k ∈ l.map Prod.fst) :
    (l.lookup k).isSome = true := by
  induction l with
  | nil => simp at h
  | cons a t ih =>
    simp only [List.map_cons, List.mem_cons] at h
    rw [List.lookup_cons]
    cases hka : (k == a.1) with
    | true => simp
    | false =>
      rcases h with h | h
      · rw [beq_eq_false_iff_ne] at hka
        exact absurd h hka
      · exact ih h

/-- The Python membership test k in d, as used by dictInsert, detects
exactly the keys of the entries. -/
theorem any_key_eq_true_iff {α β : Type} [DecidableEq α]
    (l : List (α × β)) (k : α) :
    l.any (fun p => p.1 = k) = true ↔ k ∈ l.map Prod.fst := by
  simp [List.any_eq_true, List.mem_map]

end HelperLemmas

/-- Lookup skips a prefix in which the key does not occur. -/
theorem lookup_append_of_none {α β : Type} [BEq α]
    {l1 : List (α × β)} (l2 : List (α × β)) {k : α} (h : l1.lookup k = none) :
    (l1 ++ l2).lookup k = l2.lookup k := by
  induction l1 with
  | nil => rfl
  | cons a t ih =>
    rw [List.lookup_cons] at h
    rw [List.cons_append, List.lookup_cons]
    cases hka : (k == a.1) with
    | true => rw [hka] at h; exact absurd h (by simp)
    | false => rw [hka] at h; exact ih h

/-- dictInsert stores the given value at the given key: the first entry
found for the key after an overwrite or an append is the new value. -/
theorem lookup_dictInsert_self {α β : Type} [BEq α] [LawfulBEq α] [DecidableEq α]
    (l : List (α × β)) (k : α) (v : β) : (dictInsert l k v).lookup k = some v := by
  unfold dictInsert
  split_ifs with h
  · induction l with
    | nil => simp at h
    | cons a t ih =>
      obtain ⟨a1, a2⟩ := a
      by_cases hak : a1 = k
      · subst hak
        simp [List.lookup_cons]
      · have hk : (k == a1) = false := by
          rw [beq_eq_false_iff_ne]
          exact fun hkk => hak hkk.symm
        have h2 : t.any (fun p => p.1 = k) = true := by
          simp only [List.any_cons] at h
          simpa [hak] using h
        simp [List.lookup_cons, hak, hk]
        exact ih h2
  · have hnm : ¬ k ∈ l.map Prod.fst := fun hm => h ((any_key_eq_true_iff l k).mpr hm)
    rw [lookup_append_of_none _ (lookup_eq_none_of_not_mem_keys hnm), List.lookup_cons,
      beq_self_eq_true]

/-- Erasing the entry of a key from a table with pairwise distinct keys
makes lookup of that key fail. -/
theorem lookup_eraseP_eq_none {α β : Type} [BEq α] [LawfulBEq α]
    {l : List (α × β)} {k : α} (hkeys : (l.map Prod.fst).Nodup) :
    (l.eraseP (fun p => p.1 == k)).lookup k = none := by
  induction l with
  | nil => rfl
  | cons a t ih =>
    simp only [List.map_cons, List.nodup_cons] at hkeys
    rw [List.eraseP_cons]
    cases hak : (a.1 == k) with
    | true =>
      simp only [cond_true]
      apply lookup_eq_none_of_not_mem_keys
      rw [show k = a.1 from (eq_of_beq hak).symm]
      exact hkeys.1
    | false =>
      simp only [cond_false]
      rw [List.lookup_cons]
      have : (k == a.1) = false := by
        simp only [beq_eq_false_iff_ne, ne_eq]
        intro hkk
        rw [beq_eq_false_iff_ne] at hak
        exact hak hkk.symm
      simp only [this]
      exact ih hkeys.2

/-- A pointwise overwrite of a key that occurs on no entry is the identity. -/
theorem map_update_of_not_mem_keys {α : Type} [DecidableEq α]
    {l : List (α × ℚ)} {k : α} (v : ℚ) (h : ¬ k ∈ l.map Prod.fst) :
    l.map (fun p => if p.1 = k then (k, v) else p) = l := by
  induction l with
  | nil => rfl
  | cons a t ih =>
    simp only [List.map_cons, List.mem_cons, not_or] at h
    rw [List.map_cons, if_neg (fun hh => h.1 hh.symm), ih h.2]

/-- Overwriting the value of a present key changes a value sum by the
difference of new and old value (distinct keys). -/
theorem sumVals_map_update {α : Type} [BEq α] [LawfulBEq α] [DecidableEq α]
    (k : α) (v : ℚ) :
    ∀ l : List (α × ℚ), (l.map Prod.fst).Nodup → ∀ w, l.lookup k = some w →
      sumVals (l.map (fun p => if p.1 = k then (k, v) else p))
        = sumVals l + v - w := by
  intro l
  induction l with
  | nil => intro _ w hw; simp at hw
  | cons a t ih =>
    obtain ⟨a1, a2⟩ := a
    intro hnd w hw
    simp only [List.map_cons, List.nodup_cons] at hnd
    rw [List.lookup_cons] at hw
    by_cases hak : a1 = k
    · subst hak
      simp only [beq_self_eq_true] at hw
      have hw2 : a2 = w := by simpa using hw
      subst hw2
      rw [List.map_cons, if_pos rfl, map_update_of_not_mem_keys v hnd.1]
      simp only [sumVals, List.map_cons, List.sum_cons]
      ring
    · have hk : (k == a1) = false := by
        simp only [beq_eq_false_iff_ne, ne_eq]
        exact fun hkk => hak hkk.symm
      simp only [hk] at hw
      rw [List.map_cons, if_neg hak]
      simp only [sumVals, List.map_cons, List.sum_cons] at ih ⊢
      rw [ih hnd.2 w hw]
      ring

/-- The effect of a Python dict assignment on the sum of the values:
the new value is added and the previous value of the key (0 when absent)
is removed. -/
theorem sumVals_dictInsert {α : Type} [BEq α] [LawfulBEq α] [DecidableEq α]
    (l : List (α × ℚ)) (k : α) (v : ℚ) (hkeys : (l.map Prod.fst).Nodup) :
    sumVals (dictInsert l k v) = sumVals l + v - (l.lookup k).getD 0 := by
  unfold dictInsert
  split_ifs with h
  · have hm : k ∈ l.map Prod.fst := (any_key_eq_true_iff l k).mp h
    obtain ⟨w, hw⟩ := Option.isSome_iff_exists.mp (lookup_isSome_of_mem_keys hm)
    rw [sumVals_map_update k v l hkeys w hw, hw]
    rfl
  · have hnm : ¬ k ∈ l.map Prod.fst := fun hm => h ((any_key_eq_true_iff l k).mpr hm)
    rw [lookup_eq_none_of_not_mem_keys hnm]
    simp [sumVals]

/-- Sums of mapped quotients by a fixed denominator. -/
theorem sum_map_div {α : Type} (l : List α) (f : α → ℚ) (c : ℚ) :
    (l.map (fun x => f x / c)).sum = (l.map f).sum / c := by
  induction l with
  | nil => simp
  | cons a t ih => simp [ih, add_div]

/-- The structural BEq instance of tokens counts exactly as the instance
derived from decidable equality. -/
theorem tok_count_instances (x : Tok) (l : List Tok) :
    l.count x = @List.count Tok (instBEqOfDecidableEq : BEq Tok) x l := by
  induction l with
  | nil => rfl
  | cons a t ih =>
    simp only [List.count_cons, ih]
    congr 1
    by_cases h : a = x
    · subst h
      have h1 : (a == a) = true := by simp
      have h2 : (@BEq.beq Tok (instBEqOfDecidableEq : BEq Tok) a a) = true := by
        simp [instBEqOfDecidableEq]
      rw [h1, h2]
    · have h1 : (a == x) = false := by simp [h]
      have h2 : (@BEq.beq Tok (instBEqOfDecidableEq : BEq Tok) a x) = false := by
        simp [instBEqOfDecidableEq, h]
      rw [h1, h2]

/-- The unigram probabilities built from a non-empty token stream sum to 1. -/
theorem sumVals_build_prob (ws : List Tok) (h : ws ≠ []) :
    sumVals (build_prob ws) = 1 := by
  unfold sumVals build_prob
  rw [List.map_map]
  have hcomp :
      (Prod.snd ∘ fun w => (w, (ws.count w : ℚ) / (ws.length : ℚ)))
        = fun w => (ws.count w : ℚ) / (ws.length : ℚ) := rfl
  rw [hcomp, sum_map_div]
  have hcast : (ws.dedup.map (fun w => (ws.count w : ℚ))).sum = ((ws.length : ℕ) : ℚ) := by
    simp only [tok_count_instances]
    rw [show (fun w => ((@List.count Tok (instBEqOfDecidableEq : BEq Tok) w ws : ℕ) : ℚ))
          = (Nat.cast ∘ fun w => @List.count Tok (instBEqOfDecidableEq : BEq Tok) w ws)
        from rfl]
    rw [← List.map_map, ← Nat.cast_list_sum, List.sum_map_count_dedup_eq_length]
  rw [hcast]
  have hlen : ((ws.length : ℕ) : ℚ) ≠ 0 := by
    simp only [ne_eq, Nat.cast_eq_zero, List.length_eq_zero]
    exact h
  exact div_self hlen

/-- Sorting by a key preserves the length of the list. -/
theorem length_sortByKey {γ : Type} [LE γ] (key : Tok → γ) (l : List Tok) :
    (sortByKey key l).length = l.length := by
  unfold sortByKey
  exact @List.length_insertionSort Tok (fun a b => key a ≤ key b)
    (fun _ _ => Classical.dec _) l

/-- Recording an acceptance increments the accepted counter of the pair. -/
theorem record_accept_at (fb : Tok → Tok → Option (ℕ × ℕ)) (o s : Tok)
    (a r : ℕ) (h : fb o s = some (a, r)) :
    record_user_feedback fb o s true o s = some (a + 1, r) := by
  simp [record_user_feedback, h]

/-- Recording a rejection increments the rejected counter of the pair. -/
theorem record_reject_at (fb : Tok → Tok → Option (ℕ × ℕ)) (o s : Tok)
    (a r : ℕ) (h : fb o s = some (a, r)) :
    record_user_feedback fb o s false o s = some (a, r + 1) := by
  simp [record_user_feedback, h]

/-- Recording n+1 acceptances starting from an empty store yields the
record (n+1, 0) for the pair. -/
theorem iterate_accept (o s : Tok) (n : ℕ) :
    ((fun fb => record_user_feedback fb o s true)^[n + 1] emptyFeedback) o s
      = some (n + 1, 0) := by
  induction n with
  | zero =>
    rw [Function.iterate_one]
    simp [record_user_feedback, emptyFeedback]
  | succ m ih =>
    rw [Function.iterate_succ_apply']
    exact record_accept_at _ o s (m + 1) 0 ih

/-- Claim C4: custom_score classifies by length difference: equal length
gives the Levenshtein distance times weight 1 plus the original length
minus the common prefix length; a candidate one longer gives the distance
times weight 2 plus the same prefix penalty; a candidate one shorter gives
the distance times weight 3 with no prefix term; every other length
difference gives the distance times weight 4. -/
theorem C4_custom_score_classification (suggestion original_word : Tok) :
    custom_score suggestion original_word =
      if suggestion.length = original_word.length then
        (edit_distance suggestion original_word : ℤ) * 1 +
          ((original_word.length : ℤ) -
            (common_prefix_length suggestion original_word : ℤ))
      else if suggestion.length = original_word.length + 1 then
        (edit_distance suggestion original_word : ℤ) * 2 +
          ((original_word.length : ℤ) -
            (common_prefix_length suggestion original_word : ℤ))
      else if original_word.length = suggestion.length + 1 then
        (edit_distance suggestion original_word : ℤ) * 3
      else
        (edit_distance suggestion original_word : ℤ) * 4 := by
  unfold custom_score
  split_ifs with h1 h2 h3 h4 h5 h6 <;> first
    | rfl
    | (exfalso; omega)

/-- Claim C10: for a non-empty word over the lowercase alphabet, edit1
contains the word itself (replacing a character by itself), and every
element of edit1 has length len-1, len or len+1. -/
theorem C10_edit1_self_and_lengths (word : Tok) (hne : word ≠ [])
    (hlow : ∀ c ∈ word, c ∈ letter) :
    word ∈ edit1 word ∧
      ∀ x ∈ edit1 word,
        x.length = word.length - 1 ∨ x.length = word.length ∨
          x.length = word.length + 1 := by
  constructor
  · rw [edit1, List.mem_dedup]
    apply List.mem_append_left
    apply List.mem_append_left
    apply List.mem_append_left
    obtain ⟨c, t, rfl⟩ : ∃ c t, word = c :: t := by
      cases word with
      | nil => exact absurd rfl hne
      | cons c t => exact ⟨c, t, rfl⟩
    rw [replaceEdits, List.mem_flatMap]
    refine ⟨([], c :: t), ?_, ?_⟩
    · rw [List.mem_filter]
      constructor
      · rw [splits, List.mem_map]
        exact ⟨0, by simp⟩
      · simp
    · rw [List.mem_map]
      exact ⟨c, hlow c (List.mem_cons_self c t), rfl⟩
  · intro x hx
    rw [edit1, List.mem_dedup, List.mem_append, List.mem_append, List.mem_append] at hx
    rcases hx with ((hr | hi) | hd) | hs
    · rw [replaceEdits, List.mem_flatMap] at hr
      obtain ⟨p, hp, hx⟩ := hr
      rw [List.mem_filter] at hp
      have hlen := congrArg List.length (splits_append hp.1)
      rw [List.length_append] at hlen
      have hp2 : p.2 ≠ [] := by simpa using hp.2
      have hp2len : 1 ≤ p.2.length := List.length_pos.mpr hp2
      rw [List.mem_map] at hx
      obtain ⟨c, _, rfl⟩ := hx
      right; left
      simp only [List.length_append, List.length_cons, List.length_tail]
      omega
    · rw [insertEdits, List.mem_flatMap] at hi
      obtain ⟨p, hp, hx⟩ := hi
      have hlen := congrArg List.length (splits_append hp)
      rw [List.length_append] at hlen
      rw [List.mem_map] at hx
      obtain ⟨c, _, rfl⟩ := hx
      right; right
      simp only [List.length_append, List.length_cons]
      omega
    · rw [deleteEdits, List.mem_map] at hd
      obtain ⟨p, hp, rfl⟩ := hd
      rw [List.mem_filter] at hp
      have hlen := congrArg List.length (splits_append hp.1)
      rw [List.length_append] at hlen
      have hp2 : p.2 ≠ [] := by simpa using hp.2
      have hp2len : 1 ≤ p.2.length := List.length_pos.mpr hp2
      left
      simp only [List.length_append, List.length_tail]
      omega
    · rw [swapEdits, List.mem_map] at hs
      obtain ⟨p, hp, rfl⟩ := hs
      rw [List.mem_filter] at hp
      have hlen := congrArg List.length (splits_append hp.1)
      rw [List.length_append] at hlen
      have hp2len : 1 < p.2.length := by simpa using hp.2
      right; left
      simp only [List.length_append, List.length_cons, List.length_drop]
      omega

/-- Claim C10, witness: the two-letter word ab satisfies the hypotheses
and hence the conclusion. -/
theorem C10_witness :
    "ab".toList ∈ edit1 "ab".toList ∧
      ∀ x ∈ edit1 "ab".toList,
        x.length = "ab".toList.length - 1 ∨ x.length = "ab".toList.length ∨
          x.length = "ab".toList.length + 1 :=
  C10_edit1_self_and_lengths "ab".toList (by decide) (by decide)

/-- Claim C2, counterexample state: a registered shortcut whose expansion
is the empty string, while the token is in the SymSpell dictionary. -/
def shortcutEmptyState : EnhancedState :=
  { EnhancedAutocorrection.initState with
    shortcuts := [("x".toList, [])]
    sym_words := ["x".toList] }

/-- Claim C2, counterexample: for a registered shortcut whose expansion is
the empty string the Python truthiness test on the expansion fails, so the
pipeline does not short-circuit: it returns the token via the SymSpell
membership branch instead of returning the canonical expansion alone. -/
theorem C2_counterexample :
    EnhancedAutocorrection.is_shortcut shortcutEmptyState ("x".toList) = true ∧
    EnhancedAutocorrection.get_shortcut_expansion shortcutEmptyState ("x".toList)
      = some [] ∧
    EnhancedAutocorrection.correct_spelling_enhanced shortcutEmptyState [] ("x".toList)
      = [("x".toList, 1, 1, "SymSpellPy")] := by
  refine ⟨rfl, rfl, ?_⟩
  rfl

/-- Claim C2 (amended): a registered shortcut with a non-empty canonical
expansion short-circuits correct_spelling_enhanced: the result is exactly
the singleton carrying the expansion, regardless of SymSpell membership of
the token, and no candidate lookup is consulted. -/
theorem C2_shortcut_shortcircuits (st : EnhancedState) (previous_words : List Tok)
    (word expansion : Tok)
    (h : EnhancedAutocorrection.get_shortcut_expansion st word = some expansion)
    (hne : expansion ≠ []) :
    EnhancedAutocorrection.correct_spelling_enhanced st previous_words word
      = [(expansion, 1, 1, "Shortcut expansion")] := by
  unfold EnhancedAutocorrection.correct_spelling_enhanced
  rw [h]
  simp [hne]

/-- Claim C2, witness state: a shortcut brb mapping to a non-empty phrase,
with brb also present in the SymSpell dictionary. -/
def shortcutWitnessState : EnhancedState :=
  { EnhancedAutocorrection.initState with
    shortcuts := [("brb".toList, "be right back".toList)]
    sym_words := ["brb".toList] }

/-- Claim C2, witness: the amended theorem applied at the concrete state. -/
theorem C2_witness :
    EnhancedAutocorrection.correct_spelling_enhanced shortcutWitnessState []
        ("brb".toList)
      = [("be right back".toList, 1, 1, "Shortcut expansion")] :=
  C2_shortcut_shortcircuits shortcutWitnessState [] ("brb".toList)
    ("be right back".toList) rfl (by decide)

/-- Claim C1, counterexample: "hello" is in the vocabulary built from the
corpus ["hello"], yet correct_spelling returns None (the Python method only
prints a message), not the token paired with its stored probability. -/
theorem C1_counterexample :
    Autocorrection.correct_spelling ["hello".toList] ("hello".toList) = none := by
  unfold Autocorrection.correct_spelling
  rw [if_pos (by decide)]

/-- Claim C1 (amended): for an in-vocabulary token with no preceding
context, the base implementation returns None; the hybrid implementation
returns the token with its stored probability (and context placeholder 1)
without any candidate generation; the enhanced implementation returns the
token with the fixed probability 1, not a stored probability, when it is in
the SymSpell dictionary and is not a shortcut. -/
theorem C1_in_vocabulary_behaviour :
    (∀ (words : List Tok) (word : Tok), word ∈ Autocorrection.vocabOf words →
      Autocorrection.correct_spelling words word = none)
    ∧ (∀ (st : HybridState) (word : Tok), word ∈ st.vocabulary →
      HybridAutocorrection.correct_spelling_hybrid st [] word =
        [(word, dictGetD st.prob_of_word word 0, 1)])
    ∧ (∀ (st : EnhancedState) (word : Tok),
        EnhancedAutocorrection.get_shortcut_expansion st word = none →
        word ∈ st.sym_words →
        EnhancedAutocorrection.correct_spelling_enhanced st [] word =
          [(word, 1, 1, "SymSpellPy")]) := by
  refine ⟨?_, ?_, ?_⟩
  · intro words word h
    unfold Autocorrection.correct_spelling
    rw [if_pos h]
  · intro st word h
    unfold HybridAutocorrection.correct_spelling_hybrid
    rw [if_pos h]
  · intro st word hsc h
    unfold EnhancedAutocorrection.correct_spelling_enhanced
    rw [hsc]
    simp [h]

/-- Claim C1, witness: applying the hybrid clause to the state built from
a three-token corpus, where the stored probability of hello is 2/3. -/
theorem C1_witness :
    HybridAutocorrection.correct_spelling_hybrid
        (HybridAutocorrection.build
          ["hello".toList, "world".toList, "hello".toList]) [] ("hello".toList)
      = [("hello".toList, 2 / 3, 1)] := by
  have h := C1_in_vocabulary_behaviour.2.1
    (HybridAutocorrection.build ["hello".toList, "world".toList, "hello".toList])
    ("hello".toList) (by decide)
  rw [h]
  norm_num +decide [HybridAutocorrection.build, build_prob, dictGetD, List.lookup,
    List.dedup_cons_of_mem, List.dedup_cons_of_not_mem, List.dedup_nil,
    show (("hello".toList : Tok) == "world".toList) = false from by decide,
    show (('h' == 'w') : Bool) = false from by decide,
    show (List.count ("hello".toList : Tok)
        ["hello".toList, "world".toList, "hello".toList]) = 2 from by decide]

/-- Claim C7: get_context_probability (in both the enhanced and the hybrid
class) returns the trigram probability of (secondToLast, last, word) when
at least two preceding tokens exist and that probability is non-zero;
otherwise, when at least one preceding token exists, the bigram probability
of (last, word); otherwise 0.  The stored probabilities are non-negative in
every reachable state, which the hypotheses record. -/
theorem C7_get_context_probability :
    (∀ (st : EnhancedState) (word : Tok) (previous_words : List Tok),
      0 ≤ dictGetD st.prob_of_trigram
          (penultTok previous_words, lastTok previous_words, word) 0 →
      ((2 ≤ previous_words.length ∧
          dictGetD st.prob_of_trigram
            (penultTok previous_words, lastTok previous_words, word) 0 ≠ 0 →
        EnhancedAutocorrection.get_context_probability st word previous_words =
          dictGetD st.prob_of_trigram
            (penultTok previous_words, lastTok previous_words, word) 0)
      ∧ (¬ (2 ≤ previous_words.length ∧
            dictGetD st.prob_of_trigram
              (penultTok previous_words, lastTok previous_words, word) 0 ≠ 0) →
          1 ≤ previous_words.length →
        EnhancedAutocorrection.get_context_probability st word previous_words =
          dictGetD st.prob_of_bigram (lastTok previous_words, word) 0)
      ∧ (previous_words.length = 0 →
        EnhancedAutocorrection.get_context_probability st word previous_words = 0)))
    ∧ (∀ (st : HybridState) (word : Tok) (previous_words : List Tok),
      0 ≤ dictGetD st.prob_of_trigram
          (penultTok previous_words, lastTok previous_words, word) 0 →
      ((2 ≤ previous_words.length ∧
          dictGetD st.prob_of_trigram
            (penultTok previous_words, lastTok previous_words, word) 0 ≠ 0 →
        HybridAutocorrection.get_context_probability st word previous_words =
          dictGetD st.prob_of_trigram
            (penultTok previous_words, lastTok previous_words, word) 0)
      ∧ (¬ (2 ≤ previous_words.length ∧
            dictGetD st.prob_of_trigram
              (penultTok previous_words, lastTok previous_words, word) 0 ≠ 0) →
          1 ≤ previous_words.length →
        HybridAutocorrection.get_context_probability st word previous_words =
          dictGetD st.prob_of_bigram (lastTok previous_words, word) 0)
      ∧ (previous_words.length = 0 →
        HybridAutocorrection.get_context_probability st word previous_words = 0))) := by
  constructor
  · intro st word previous_words hnn
    unfold EnhancedAutocorrection.get_context_probability
    refine ⟨?_, ?_, ?_⟩
    · intro h
      rw [if_pos h.1, if_pos (lt_of_le_of_ne hnn (Ne.symm h.2))]
    · intro h h1
      rw [not_and_or] at h
      rcases h with h | h
      · rw [if_neg h, if_pos h1]
      · rw [not_not] at h
        by_cases h2 : 2 ≤ previous_words.length
        · rw [if_pos h2, h, if_neg (lt_irrefl 0), if_pos h1]
        · rw [if_neg h2, if_pos h1]
    · intro h0
      have h2 : ¬ 2 ≤ previous_words.length := by omega
      have h1 : ¬ 1 ≤ previous_words.length := by omega
      rw [if_neg h2, if_neg h1]
  · intro st word previous_words hnn
    unfold HybridAutocorrection.get_context_probability
    refine ⟨?_, ?_, ?_⟩
    · intro h
      rw [if_pos h.1, if_pos (lt_of_le_of_ne hnn (Ne.symm h.2))]
    · intro h h1
      rw [not_and_or] at h
      rcases h with h | h
      · rw [if_neg h, if_pos h1]
      · rw [not_not] at h
        by_cases h2 : 2 ≤ previous_words.length
        · rw [if_pos h2, h, if_neg (lt_irrefl 0), if_pos h1]
        · rw [if_neg h2, if_pos h1]
    · intro h0
      have h2 : ¬ 2 ≤ previous_words.length := by omega
      have h1 : ¬ 1 ≤ previous_words.length := by omega
      rw [if_neg h2, if_neg h1]

/-- Claim C7, witness state: concrete bigram and trigram tables. -/
def contextWitnessState : EnhancedState :=
  { EnhancedAutocorrection.initState with
    prob_of_bigram := [((["o".toList.head!] , "c".toList), 1 / 4)]
    prob_of_trigram := [(("a".toList, "b".toList, "c".toList), 1 / 2)] }

/-- Claim C7, witness: with two preceding tokens and a stored non-zero
trigram probability the accessor returns that probability. -/
theorem C7_witness :
    EnhancedAutocorrection.get_context_probability contextWitnessState
        ("c".toList) ["a".toList, "b".toList] = 1 / 2 := by
  have h := (C7_get_context_probability.1 contextWitnessState ("c".toList)
    ["a".toList, "b".toList] (by norm_num [dictGetD, contextWitnessState,
      EnhancedAutocorrection.initState, List.lookup, penultTok, lastTok])).1
  rw [h ⟨by norm_num, by
    norm_num [dictGetD, contextWitnessState, EnhancedAutocorrection.initState,
      List.lookup, penultTok, lastTok]⟩]
  norm_num [dictGetD, contextWitnessState, EnhancedAutocorrection.initState,
    List.lookup, penultTok, lastTok]

/-- The shortcuts table of add_shortcut is the dict assignment of the
lowercased pair; the possible add_custom_word side effect touches only the
custom words, the vocabulary and the word probabilities. -/
theorem add_shortcut_shortcuts (st : EnhancedState) (shortcut full_word : Tok) :
    (EnhancedAutocorrection.add_shortcut st shortcut full_word).shortcuts =
      dictInsert st.shortcuts (lowerTok shortcut) (lowerTok full_word) := by
  simp only [EnhancedAutocorrection.add_shortcut]
  split_ifs <;> rfl

/-- Claim C8: remove_shortcut returns true exactly when a mapping for the
lowercased key existed, in which case the mapping is gone afterwards; on an
absent key the state is returned unchanged together with false; and adding
the same shortcut twice leaves the mapping at the second expansion. -/
theorem C8_remove_shortcut (st : EnhancedState) (shortcut : Tok)
    (hkeys : (st.shortcuts.map Prod.fst).Nodup) :
    ((EnhancedAutocorrection.remove_shortcut st shortcut).2 = true ↔
      (st.shortcuts.lookup (lowerTok shortcut)).isSome = true)
    ∧ ((st.shortcuts.lookup (lowerTok shortcut)).isSome = true →
      ((EnhancedAutocorrection.remove_shortcut st shortcut).1.shortcuts.lookup
        (lowerTok shortcut)) = none)
    ∧ (st.shortcuts.lookup (lowerTok shortcut) = none →
      (EnhancedAutocorrection.remove_shortcut st shortcut).1 = st ∧
        (EnhancedAutocorrection.remove_shortcut st shortcut).2 = false)
    ∧ (∀ full1 full2 : Tok,
      ((EnhancedAutocorrection.add_shortcut
          (EnhancedAutocorrection.add_shortcut st shortcut full1)
          shortcut full2).shortcuts.lookup (lowerTok shortcut))
        = some (lowerTok full2)) := by
  refine ⟨?_, ?_, ?_, ?_⟩
  · simp only [EnhancedAutocorrection.remove_shortcut]
    split_ifs with h
    · simp [h]
    · simp [h]
  · intro h
    simp only [EnhancedAutocorrection.remove_shortcut]
    rw [if_pos h]
    exact lookup_eraseP_eq_none hkeys
  · intro h
    simp only [EnhancedAutocorrection.remove_shortcut]
    rw [if_neg (by rw [h]; simp)]
    exact ⟨rfl, rfl⟩
  · intro full1 full2
    rw [add_shortcut_shortcuts, add_shortcut_shortcuts]
    exact lookup_dictInsert_self _ _ _

/-- Claim C8, witness state: one registered shortcut. -/
def removeWitnessState : EnhancedState :=
  { EnhancedAutocorrection.initState with
    shortcuts := [("brb".toList, "be right back".toList)] }

/-- Claim C8, witness: removing the registered shortcut succeeds and
removes the mapping; removing a missing shortcut returns the state
unchanged with false; re-adding overwrites. -/
theorem C8_witness :
    (EnhancedAutocorrection.remove_shortcut removeWitnessState ("brb".toList)).2 = true
    ∧ ((EnhancedAutocorrection.remove_shortcut removeWitnessState
        ("brb".toList)).1.shortcuts.lookup ("brb".toList)) = none
    ∧ (EnhancedAutocorrection.remove_shortcut removeWitnessState ("xx".toList)).1
        = removeWitnessState
    ∧ (EnhancedAutocorrection.remove_shortcut removeWitnessState ("xx".toList)).2
        = false
    ∧ ((EnhancedAutocorrection.add_shortcut
          (EnhancedAutocorrection.add_shortcut removeWitnessState
            ("omw".toList) ("on my way".toList))
          ("omw".toList) ("on my way now".toList)).shortcuts.lookup ("omw".toList))
        = some ("on my way now".toList) := by
  have h1 := C8_remove_shortcut removeWitnessState ("brb".toList) (by decide)
  have h2 := C8_remove_shortcut removeWitnessState ("xx".toList) (by decide)
  have h3 := C8_remove_shortcut removeWitnessState ("omw".toList) (by decide)
  refine ⟨h1.1.mpr (by decide), ?_, (h2.2.2.1 (by decide)).1,
    (h2.2.2.1 (by decide)).2, ?_⟩
  · have := h1.2.1 (by decide)
    simpa [lowerTok] using this
  · have := h3.2.2.2 ("on my way".toList) ("on my way now".toList)
    simpa [lowerTok] using this

/-- Claim C6: when the query word is not in the vocabulary and none of its
edit-1 or edit-2 variants is a vocabulary member, the correction pipelines
return the original word with probability 0 and context probability 0 as
an ordinary result (the base implementation and the hybrid one). -/
theorem C6_no_suggestion_terminal (words : List Tok) (st : HybridState)
    (previous_words : List Tok) (word : Tok)
    (h1 : ¬ word ∈ Autocorrection.vocabOf words)
    (h2 : ¬ word ∈ st.vocabulary)
    (h3 : ∀ s : Tok, s ∈ edit1 word ∨ s ∈ edit2 word →
      ¬ s ∈ Autocorrection.vocabOf words)
    (h4 : ∀ s : Tok, s ∈ edit1 word ∨ s ∈ edit2 word → ¬ s ∈ st.vocabulary) :
    Autocorrection.correct_spelling words word = some [(word, [0, 0])]
    ∧ HybridAutocorrection.correct_spelling_hybrid st previous_words word
        = [(word, 0, 0)] := by
  have hfil : ∀ (v : List Tok), (∀ s : Tok, s ∈ edit1 word ∨ s ∈ edit2 word →
      ¬ s ∈ v) → (suggestionsUnion word).filter (fun w => w ∈ v) = [] := by
    intro v hv
    rw [List.filter_eq_nil_iff]
    intro a ha
    rw [suggestionsUnion, List.mem_dedup, List.mem_append] at ha
    simpa using hv a ha
  constructor
  · unfold Autocorrection.correct_spelling
    rw [if_neg h1, if_pos (hfil _ h3)]
  · unfold HybridAutocorrection.correct_spelling_hybrid
    rw [if_neg h2, if_pos (hfil _ h4)]

/-- Claim C6, witness: over an empty corpus no candidate survives, and both
pipelines return the terminal result for the query a. -/
theorem C6_witness :
    Autocorrection.correct_spelling [] ("a".toList) = some [("a".toList, [0, 0])]
    ∧ HybridAutocorrection.correct_spelling_hybrid (HybridAutocorrection.build [])
        [] ("a".toList) = [("a".toList, 0, 0)] :=
  C6_no_suggestion_terminal [] (HybridAutocorrection.build []) [] ("a".toList)
    (by decide)
    (by decide)
    (fun s _ => by simp [Autocorrection.vocabOf])
    (fun s _ => by simp [HybridAutocorrection.build])

/-- Claim C3 (amended): the hybrid and the enhanced pipelines cap their
result at five entries for every state and input. -/
theorem C3_hybrid_enhanced_cap (st : HybridState) (ste : EnhancedState)
    (previous_words : List Tok) (word : Tok) :
    (HybridAutocorrection.correct_spelling_hybrid st previous_words word).length ≤ 5
    ∧ (EnhancedAutocorrection.correct_spelling_enhanced ste previous_words
        word).length ≤ 5 := by
  constructor
  · simp only [HybridAutocorrection.correct_spelling_hybrid]
    split_ifs <;>
      (simp only [List.length_map, List.length_take, List.length_cons,
        List.length_nil]; omega)
  · simp only [EnhancedAutocorrection.correct_spelling_enhanced]
    split <;> split_ifs <;>
      (simp only [List.length_map, List.length_take, List.length_cons,
        List.length_nil]; omega)

/-- Claim C3, counterexample corpus: six distinct two-letter words, all of
them edit-1 neighbours of the one-letter query. -/
def capCorpus : List Tok :=
  ["aa".toList, "ab".toList, "ac".toList, "ad".toList, "ae".toList, "af".toList]

/-- An insertion of an alphabet character at any split position is an
edit-1 candidate. -/
theorem insert_mem_edit1 (word : Tok) (c : Char) (hc : c ∈ letter)
    (p : Tok × Tok) (hp : p ∈ splits word) : p.1 ++ c :: p.2 ∈ edit1 word := by
  rw [edit1, List.mem_dedup]
  apply List.mem_append_left
  apply List.mem_append_left
  apply List.mem_append_right
  rw [insertEdits, List.mem_flatMap]
  exact ⟨p, hp, List.mem_map.mpr ⟨c, hc, rfl⟩⟩

/-- Filtering a duplicate-free list by membership in a duplicate-free
sublist keeps exactly that sublist, up to order. -/
theorem length_filter_of_nodup_subset (L V : List Tok) (hL : L.Nodup)
    (hV : V.Nodup) (hsub : ∀ v ∈ V, v ∈ L) :
    (L.filter (fun w => w ∈ V)).length = V.length := by
  have hperm : List.Perm (L.filter (fun w => w ∈ V)) V := by
    rw [List.perm_ext_iff_of_nodup (hL.filter _) hV]
    intro a
    simp only [List.mem_filter, decide_eq_true_eq]
    exact ⟨fun h => h.2, fun h => ⟨hsub a h, h⟩⟩
  exact hperm.length_eq

/-- Claim C3, counterexample: the base implementation has no cap: with six
vocabulary words within edit distance one of the query, correct_spelling
returns all six suggestions, exceeding the claimed bound of five. -/
theorem C3_counterexample :
    ((Autocorrection.correct_spelling capCorpus ("a".toList)).getD []).length = 6 := by
  have hmem : ∀ w ∈ Autocorrection.vocabOf capCorpus,
      w ∈ suggestionsUnion ("a".toList) := by
    intro w hw
    have hw2 : w ∈ capCorpus := by
      simpa [Autocorrection.vocabOf, List.mem_dedup] using hw
    rw [suggestionsUnion, List.mem_dedup]
    apply List.mem_append_left
    fin_cases hw2 <;>
      exact insert_mem_edit1 ("a".toList) _ (by decide) ("a".toList, []) (by decide)
  have hfl0 := length_filter_of_nodup_subset (suggestionsUnion ("a".toList))
    (Autocorrection.vocabOf capCorpus) (List.nodup_dedup _) (List.nodup_dedup _) hmem
  have hfl : ((suggestionsUnion ("a".toList)).filter
      (fun w => w ∈ Autocorrection.vocabOf capCorpus)).length = 6 := by
    rw [hfl0]
    decide
  have hne : (suggestionsUnion ("a".toList)).filter
      (fun w => w ∈ Autocorrection.vocabOf capCorpus) ≠ [] := by
    intro h
    rw [h] at hfl
    simp at hfl
  simp only [Autocorrection.correct_spelling]
  rw [if_neg (show ¬ "a".toList ∈ Autocorrection.vocabOf capCorpus by decide)]
  rw [if_neg hne]
  rw [Option.getD_some, List.length_map, length_sortByKey]
  exact hfl

/-- With a record of a > 0 acceptances and no rejection the acceptance rate
is 1, np.log(1 - 1) is -inf, and the feedback score is the top element. -/
theorem feedback_score_eq_top (fb : Tok → Tok → Option (ℕ × ℕ)) (o s : Tok)
    (a : ℕ) (h : fb o s = some (a, 0)) (ha : 0 < a) :
    feedback_score fb o s = ⊤ := by
  simp [feedback_score, h, ha]

/-- With at least one rejection on record the feedback score is the finite
value -log(1 - acceptanceRate) * 1.5. -/
theorem feedback_score_of_rejected (fb : Tok → Tok → Option (ℕ × ℕ)) (o s : Tok)
    (a r : ℕ) (h : fb o s = some (a, r)) (hr : r ≠ 0) :
    feedback_score fb o s
      = (((- Real.log (1 - acceptance_rate a r)) * 1.5 : ℝ) : EReal) := by
  have hpos : 0 < a + r := by omega
  simp [feedback_score, h, hr, hpos]

/-- Claim C5: after N acceptances and no rejection for a pair the stored
record is (N, 0) and the acceptance rate is 1; one further rejection makes
the rate strictly smaller and the feedback bonus strictly smaller in
magnitude (from the infinite np.log(0) penalty down to a finite
non-negative value); and the bonus is 0 without a record or with zero
total observations, and otherwise -log(1 - acceptanceRate) * 1.5. -/
theorem C5_feedback_monotonicity (original_word suggested_word : Tok) (N : ℕ)
    (hN : 0 < N) :
    (((fun fb => record_user_feedback fb original_word suggested_word true)^[N])
        emptyFeedback) original_word suggested_word = some (N, 0)
    ∧ acceptance_rate N 0 = 1
    ∧ acceptance_rate N 1 < acceptance_rate N 0
    ∧ 0 ≤ feedback_score
        (record_user_feedback
          (((fun fb => record_user_feedback fb original_word suggested_word true)^[N])
            emptyFeedback) original_word suggested_word false)
        original_word suggested_word
    ∧ feedback_score
        (record_user_feedback
          (((fun fb => record_user_feedback fb original_word suggested_word true)^[N])
            emptyFeedback) original_word suggested_word false)
        original_word suggested_word
      < feedback_score
          (((fun fb => record_user_feedback fb original_word suggested_word true)^[N])
            emptyFeedback) original_word suggested_word
    ∧ (∀ (fb : Tok → Tok → Option (ℕ × ℕ)) (o s : Tok),
        fb o s = none → feedback_score fb o s = 0)
    ∧ (∀ (fb : Tok → Tok → Option (ℕ × ℕ)) (o s : Tok),
        fb o s = some (0, 0) → feedback_score fb o s = 0)
    ∧ (∀ (fb : Tok → Tok → Option (ℕ × ℕ)) (o s : Tok) (a r : ℕ),
        fb o s = some (a, r) → r ≠ 0 →
        feedback_score fb o s
          = (((- Real.log (1 - acceptance_rate a r)) * 1.5 : ℝ) : EReal)) := by
  obtain ⟨n, rfl⟩ : ∃ n, N = n + 1 := ⟨N - 1, by omega⟩
  have h1 := iterate_accept original_word suggested_word n
  have h2 := record_reject_at _ original_word suggested_word (n + 1) 0 h1
  have hrate : acceptance_rate (n + 1) 0 = 1 := by
    unfold acceptance_rate
    rw [Nat.cast_zero, add_zero, div_self (by positivity)]
  have hrate2 : acceptance_rate (n + 1) 1 < 1 := by
    unfold acceptance_rate
    rw [div_lt_one (by positivity)]
    norm_num
  have htop : feedback_score
      (((fun fb => record_user_feedback fb original_word suggested_word true)^[n + 1])
        emptyFeedback) original_word suggested_word = ⊤ :=
    feedback_score_eq_top _ _ _ (n + 1) h1 (by omega)
  have hfin := feedback_score_of_rejected _ original_word suggested_word
    (n + 1) 1 h2 (by omega)
  have hval : (0 : ℝ) ≤ (- Real.log (1 - acceptance_rate (n + 1) 1)) * 1.5 := by
    apply mul_nonneg _ (by norm_num)
    rw [neg_nonneg]
    apply Real.log_nonpos
    · have : acceptance_rate (n + 1) 1 ≤ 1 := le_of_lt hrate2
      linarith
    · have : 0 ≤ acceptance_rate (n + 1) 1 := by
        unfold acceptance_rate
        positivity
      linarith
  refine ⟨h1, hrate, by rw [hrate]; exact hrate2, ?_, ?_, ?_, ?_, ?_⟩
  · rw [hfin]
    exact_mod_cast EReal.coe_nonneg.mpr hval
  · rw [hfin, htop]
    exact EReal.coe_lt_top _
  · intro fb o s h
    simp [feedback_score, h]
  · intro fb o s h
    simp [feedback_score, h]
  · intro fb o s a r h hr
    exact feedback_score_of_rejected fb o s a r h hr

/-- Claim C5, witness: for the pair (teh, the), one acceptance followed by
one rejection strictly decreases the feedback bonus. -/
theorem C5_witness :
    feedback_score
        (record_user_feedback
          (record_user_feedback emptyFeedback ("teh".toList) ("the".toList) true)
          ("teh".toList) ("the".toList) false)
        ("teh".toList) ("the".toList)
      < feedback_score
          (record_user_feedback emptyFeedback ("teh".toList) ("the".toList) true)
          ("teh".toList) ("the".toList) := by
  have h := C5_feedback_monotonicity ("teh".toList) ("the".toList) 1 (by norm_num)
  simpa [Function.iterate_one] using h.2.2.2.2.1

/-- The keys of the built unigram table are the distinct corpus tokens. -/
theorem build_prob_keys (ws : List Tok) :
    (build_prob ws).map Prod.fst = ws.dedup := by
  rw [build_prob, List.map_map]
  exact List.map_id _

/-- Claim C9 (amended): the unigram probabilities sum to 1 after building
the vocabulary from a non-empty token stream, but add_custom_word does not
preserve the sum in general: it moves the sum by 0.001 minus the previous
stored probability of the word (0 when absent). -/
theorem C9_probability_sum (ws : List Tok) (st : EnhancedState) (w : Tok)
    (hws : ws ≠ []) (hkeys : (st.prob_of_word.map Prod.fst).Nodup) :
    sumVals ((EnhancedAutocorrection.build_vocabulary st ws).prob_of_word) = 1
    ∧ sumVals ((EnhancedAutocorrection.add_custom_word st w).prob_of_word)
        = sumVals st.prob_of_word + 1 / 1000
          - (st.prob_of_word.lookup (lowerTok w)).getD 0 := by
  constructor
  · exact sumVals_build_prob ws hws
  · exact sumVals_dictInsert st.prob_of_word (lowerTok w) (1 / 1000) hkeys

/-- Claim C9, witness: the amended theorem applied at the freshly built
one-token state; the sum moves from 1 to 1 + 1/1000. -/
theorem C9_witness :
    sumVals ((EnhancedAutocorrection.build_vocabulary
        EnhancedAutocorrection.initState ["a".toList]).prob_of_word) = 1
    ∧ sumVals ((EnhancedAutocorrection.add_custom_word
        (EnhancedAutocorrection.build_vocabulary
          EnhancedAutocorrection.initState ["a".toList])
        ("b".toList)).prob_of_word)
        = sumVals (EnhancedAutocorrection.build_vocabulary
            EnhancedAutocorrection.initState ["a".toList]).prob_of_word + 1 / 1000
          - ((EnhancedAutocorrection.build_vocabulary
              EnhancedAutocorrection.initState
              ["a".toList]).prob_of_word.lookup (lowerTok ("b".toList))).getD 0 := by
  have h := C9_probability_sum ["a".toList]
    (EnhancedAutocorrection.build_vocabulary EnhancedAutocorrection.initState
      ["a".toList]) ("b".toList) (by simp)
    (by rw [show (EnhancedAutocorrection.build_vocabulary
          EnhancedAutocorrection.initState ["a".toList]).prob_of_word
        = build_prob ["a".toList] from rfl, build_prob_keys]
        exact List.nodup_dedup _)
  exact ⟨h.1, h.2⟩

/-- Claim C9, counterexample: the sum of the stored probabilities is 1
after building from the corpus consisting of the single token a, and
adding the custom word b (stored with probability 0.001) makes the sum
1 + 1/1000, so the invariant is not preserved by the mutation. -/
theorem C9_counterexample :
    sumVals ((EnhancedAutocorrection.build_vocabulary
        EnhancedAutocorrection.initState ["a".toList]).prob_of_word) = 1
    ∧ sumVals ((EnhancedAutocorrection.add_custom_word
        (EnhancedAutocorrection.build_vocabulary
          EnhancedAutocorrection.initState ["a".toList])
        ("b".toList)).prob_of_word) ≠ 1 := by
  have h1 : sumVals (build_prob ["a".toList]) = 1 :=
    sumVals_build_prob _ (by simp)
  constructor
  · exact h1
  · show sumVals (dictInsert (build_prob ["a".toList]) (lowerTok ("b".toList))
      (1 / 1000)) ≠ 1
    have hkeys : ((build_prob ["a".toList]).map Prod.fst).Nodup := by
      rw [build_prob_keys]
      exact List.nodup_dedup _
    have hnone : (build_prob ["a".toList]).lookup (lowerTok ("b".toList)) = none := by
      apply lookup_eq_none_of_not_mem_keys
      rw [build_prob_keys]
      decide
    rw [sumVals_dictInsert _ _ _ hkeys, h1, hnone]
    norm_num
